import Mathlib

/-!
Verification of the qBittorrent HTTP media-streaming subsystem
(`src/base/streaming/`): the HTTP range parser, the `StreamFile` /
`ReadRequest` read loop with its piece-priority lookahead window, the
adaptive piece deadline, the connection backpressure gate, and the
`StreamingManager` registry.  Machine integers are embedded as `Nat`/`Int`
with explicit wrap where it matters; Qt strings are embedded as `List Char`.
-/

/-! ## HTTP Range parser (`Range::fromHttpRangeField`, streamingmanager.cpp) -/

/-- Value of a decimal digit character, `none` for a non-digit.  Embeds the
per-character acceptance of `QString::toULongLong` (C locale, base 10). -/
def digitVal? (c : Char) : Option Nat :=
  if c.isDigit then some (c.toNat - 48) else none

/-- Left-to-right accumulation of a decimal numeral. -/
def parseDigits : List Char → Nat → Option Nat
  | [], acc => some acc
  | c :: cs, acc =>
    match digitVal? c with
    | none => none
    | some d => parseDigits cs (acc * 10 + d)

/-- Embedding of `QString::toULongLong` on a candidate numeral: fails on the empty string,
on any non-digit character, and on overflow past `2^64 - 1` (Qt reports
failure through its `ok` flag in all three cases). -/
def toULongLong (s : List Char) : Option Nat :=
  if s.isEmpty then none
  else
    match parseDigits s 0 with
    | none => none
    | some v => if v < 2 ^ 64 then some v else none

/-- Conversion of the `quint64` parse result to the `qint64` fields of
`Range` (two's-complement wrap for values at or above `2^63`). -/
def toQint64 (n : Nat) : Int :=
  if n < 2 ^ 63 then (n : Int) else (n : Int) - 2 ^ 64

/-- Helper for `indexOfFrom`: first index of `c` in the list, offset by `i`. -/
def indexOfAux (c : Char) : List Char → Nat → Option Nat
  | [], _ => none
  | x :: xs, i => if x = c then some i else indexOfAux c xs (i + 1)

/-- Embedding of `QString::indexOf(ch, from)`: absolute index of the first occurrence of
`c` at or after position `start`, if any. -/
def indexOfFrom (s : List Char) (c : Char) (start : Nat) : Option Nat :=
  (indexOfAux c (s.drop start) 0).map (· + start)

/-- The `Range` struct of streamingmanager.cpp. -/
structure HttpRange where
  firstBytePos : Int
  lastBytePos : Int
deriving DecidableEq

/-- Embedding of `Range::size()`. -/
def HttpRange.size (r : HttpRange) : Int := r.lastBytePos - r.firstBytePos + 1

/-- The accepted unit `QLatin1String("bytes")` as a plain character list. -/
def bytesUnitChars : List Char := ['b', 'y', 't', 'e', 's']

/-- Embedding of `Range::fromHttpRangeField(value, fileSize, ok)`: the `ok` out-parameter
becomes the `Option`.  Mirrors the source step by step: find `=`, check the
unit is `bytes`, find `-` after the `=`, parse the first position (failure
of the parse rejects), parse the optional last position (failure of the
parse defaults it to `fileSize - 1`), reject when `firstBytePos >
lastBytePos`. -/
def fromHttpRangeField (value : List Char) (fileSize : Int) : Option HttpRange :=
  match indexOfFrom value '=' 0 with
  | none => none
  | some unitRangeSeparatorIndex =>
    let unit := value.take unitRangeSeparatorIndex
    if unit ≠ bytesUnitChars then none
    else
      match indexOfFrom value '-' (unitRangeSeparatorIndex + 1) with
      | none => none
      | some rangeSeparatorIndex =>
        match toULongLong
            ((value.drop (unitRangeSeparatorIndex + 1)).take
              (rangeSeparatorIndex - unitRangeSeparatorIndex - 1)) with
        | none => none
        | some f =>
          let firstBytePos := toQint64 f
          let lastBytePos :=
            match toULongLong (value.drop (rangeSeparatorIndex + 1)) with
            | some l => toQint64 l
            | none => fileSize - 1
          if firstBytePos > lastBytePos then none
          else some ⟨firstBytePos, lastBytePos⟩

/-- Decimal digit character of `d` (callers only pass `d < 10`). -/
def digitChar (d : Nat) : Char :=
  match d with
  | 0 => '0' | 1 => '1' | 2 => '2' | 3 => '3' | 4 => '4'
  | 5 => '5' | 6 => '6' | 7 => '7' | 8 => '8' | _ => '9'

/-- Fuel-based kernel-reducible writer for decimal numerals; `natToChars`
supplies enough fuel that the first branch is never taken. -/
def natToCharsAux : Nat → Nat → List Char
  | 0, n => [digitChar (n % 10)]
  | fuel + 1, n =>
    if n < 10 then [digitChar n]
    else natToCharsAux fuel (n / 10) ++ [digitChar (n % 10)]

/-- Decimal numeral of `n`, most significant digit first. -/
def natToChars (n : Nat) : List Char := natToCharsAux n n

/-- The header value `bytes=<a>-<b>`. -/
def bytesRangeString (a b : Nat) : List Char :=
  bytesUnitChars ++ '=' :: (natToChars a ++ '-' :: natToChars b)

/-- The header value `bytes=<a>-` with the last position omitted. -/
def bytesOpenRangeString (a : Nat) : List Char :=
  bytesUnitChars ++ '=' :: (natToChars a ++ '-' :: [])

example : fromHttpRangeField ("bytes=900-2000".toList) 1000 = some ⟨900, 2000⟩ := by decide
example : fromHttpRangeField (bytesRangeString 150 349) 1000 = some ⟨150, 349⟩ := by decide
example : fromHttpRangeField (bytesOpenRangeString 150) 1000 = some ⟨150, 999⟩ := by decide
example : fromHttpRangeField ("bytes=2000-900".toList) 1000 = none := by decide
example : fromHttpRangeField ("seconds=0-1".toList) 1000 = none := by decide
example : fromHttpRangeField ("bytes=x-1".toList) 1000 = none := by decide
example : fromHttpRangeField ("bytes 0-1".toList) 1000 = none := by decide
example : fromHttpRangeField ("bytes=900".toList) 1000 = none := by decide

/-! ### Lemmas about the decimal numeral writer and the scanning helpers -/

theorem digitChar_range (d : Nat) :
    48 ≤ (digitChar d).toNat ∧ (digitChar d).toNat ≤ 57 := by
  unfold digitChar
  split <;> decide

theorem digitVal_digitChar (d : Nat) (h : d < 10) :
    digitVal? (digitChar d) = some d := by
  interval_cases d <;> decide

theorem parseDigits_append (xs ys : List Char) (acc : Nat) :
    parseDigits (xs ++ ys) acc =
      match parseDigits xs acc with
      | none => none
      | some v => parseDigits ys v := by
  induction xs generalizing acc with
  | nil => simp [parseDigits]
  | cons c cs ih =>
    simp only [List.cons_append, parseDigits]
    cases digitVal? c with
    | none => rfl
    | some d => exact ih _

theorem natToCharsAux_parse (fuel : Nat) :
    ∀ n acc, n ≤ fuel →
      parseDigits (natToCharsAux fuel n) acc
        = some (acc * 10 ^ (natToCharsAux fuel n).length + n) := by
  induction fuel with
  | zero =>
    intro n acc hn
    have : n = 0 := Nat.le_zero.mp hn
    subst this
    simp [natToCharsAux, parseDigits, digitVal?, digitChar]
  | succ fuel ih =>
    intro n acc hn
    by_cases h10 : n < 10
    · simp only [natToCharsAux, if_pos h10]
      simp [parseDigits, digitVal_digitChar n h10]
    · simp only [natToCharsAux, if_neg h10]
      have hdiv : n / 10 ≤ fuel := by
        have := Nat.div_lt_self (by omega : 0 < n) (by omega : 1 < 10)
        omega
      rw [parseDigits_append, ih (n / 10) acc hdiv]
      have hmod : n % 10 < 10 := Nat.mod_lt _ (by omega)
      simp only [parseDigits, digitVal_digitChar _ hmod, List.length_append,
        List.length_cons, List.length_nil]
      congr 1
      have : (acc * 10 ^ (natToCharsAux fuel (n / 10)).length + n / 10) * 10 + n % 10
          = acc * (10 ^ (natToCharsAux fuel (n / 10)).length * 10) + (n / 10 * 10 + n % 10) := by
        ring
      rw [this, Nat.div_add_mod' n 10, pow_succ]

theorem parseDigits_natToChars (n acc : Nat) :
    parseDigits (natToChars n) acc = some (acc * 10 ^ (natToChars n).length + n) :=
  natToCharsAux_parse n n acc le_rfl

theorem natToCharsAux_ne_nil (fuel n : Nat) : natToCharsAux fuel n ≠ [] := by
  cases fuel with
  | zero => simp [natToCharsAux]
  | succ fuel =>
    simp only [natToCharsAux]
    split <;> simp

theorem toULongLong_natToChars (n : Nat) (h : n < 2 ^ 64) :
    toULongLong (natToChars n) = some n := by
  unfold toULongLong
  rw [if_neg (by simp [List.isEmpty_iff, natToChars, natToCharsAux_ne_nil])]
  rw [parseDigits_natToChars n 0]
  norm_num at h ⊢
  simp [h]

theorem natToCharsAux_mem_range (fuel : Nat) :
    ∀ n c, c ∈ natToCharsAux fuel n → 48 ≤ c.toNat ∧ c.toNat ≤ 57 := by
  induction fuel with
  | zero =>
    intro n c hc
    simp only [natToCharsAux, List.mem_singleton] at hc
    subst hc
    exact digitChar_range _
  | succ fuel ih =>
    intro n c hc
    simp only [natToCharsAux] at hc
    split at hc
    · simp only [List.mem_singleton] at hc
      subst hc
      exact digitChar_range _
    · rcases List.mem_append.mp hc with h | h
      · exact ih _ _ h
      · simp only [List.mem_singleton] at h
        subst h
        exact digitChar_range _

theorem natToChars_no_dash (n : Nat) : '-' ∉ natToChars n := by
  intro h
  have := natToCharsAux_mem_range n n '-' h
  simp at this

theorem indexOfAux_not_mem {c : Char} {xs : List Char} (h : c ∉ xs) (ys : List Char) :
    ∀ i, indexOfAux c (xs ++ ys) i = indexOfAux c ys (i + xs.length) := by
  induction xs with
  | nil => intro i; rfl
  | cons x xt ih =>
    intro i
    have hx : x ≠ c := fun hxc => h (hxc ▸ List.mem_cons_self x xt)
    have ht : c ∉ xt := fun hm => h (List.mem_cons_of_mem x hm)
    simp only [List.cons_append, indexOfAux, if_neg hx]
    rw [show xt.append ys = xt ++ ys from rfl, ih ht, List.length_cons]
    congr 1
    omega

theorem indexOfAux_cons_self (c : Char) (ys : List Char) (i : Nat) :
    indexOfAux c (c :: ys) i = some i := by
  simp [indexOfAux]

theorem take_len_append (xs ys : List Char) : (xs ++ ys).take xs.length = xs := by
  induction xs with
  | nil => rfl
  | cons x xt ih => simp [ih]

theorem drop_len_append (xs ys : List Char) (n : Nat) :
    (xs ++ ys).drop (xs.length + n) = ys.drop n := by
  induction xs with
  | nil => simp
  | cons x xt ih =>
    simp only [List.cons_append, List.length_cons]
    rw [show xt.length + 1 + n = (xt.length + n) + 1 by omega, List.drop_succ_cons]
    exact ih

/-- Evaluation of the parser on any value of the shape
`bytes=<A>-<B>` with `A` free of `-`: the prefix scanning resolves and
only the numeral parses and the final comparison remain. -/
theorem fromHttpRangeField_shape (A B : List Char) (fileSize : Int) (hA : '-' ∉ A) :
    fromHttpRangeField (bytesUnitChars ++ '=' :: (A ++ '-' :: B)) fileSize =
      match toULongLong A with
      | none => none
      | some f =>
        match toULongLong B with
        | some l =>
          if toQint64 f > toQint64 l then none else some ⟨toQint64 f, toQint64 l⟩
        | none =>
          if toQint64 f > fileSize - 1 then none else some ⟨toQint64 f, fileSize - 1⟩ := by
  have hEq : indexOfFrom (bytesUnitChars ++ '=' :: (A ++ '-' :: B)) '=' 0 = some 5 := rfl
  have hDrop6 : (bytesUnitChars ++ '=' :: (A ++ '-' :: B)).drop 6 = A ++ '-' :: B := rfl
  have hDash : indexOfFrom (bytesUnitChars ++ '=' :: (A ++ '-' :: B)) '-' (5 + 1)
      = some (A.length + 6) := by
    unfold indexOfFrom
    rw [hDrop6, indexOfAux_not_mem hA ('-' :: B) 0, indexOfAux_cons_self]
    simp [Nat.add_comm]
  have hUnit : (bytesUnitChars ++ '=' :: (A ++ '-' :: B)).take 5 = bytesUnitChars := rfl
  have hSlice1 : ((bytesUnitChars ++ '=' :: (A ++ '-' :: B)).drop (5 + 1)).take
      (A.length + 6 - 5 - 1) = A := by
    rw [show (5 + 1) = 6 from rfl, hDrop6,
      show A.length + 6 - 5 - 1 = A.length by omega, take_len_append]
  have hSlice2 : (bytesUnitChars ++ '=' :: (A ++ '-' :: B)).drop (A.length + 6 + 1) = B := by
    have h1 : bytesUnitChars ++ '=' :: (A ++ '-' :: B)
        = ((bytesUnitChars ++ ['=']) ++ (A ++ ['-'])) ++ B := by simp
    have h2 : A.length + 6 + 1 = ((bytesUnitChars ++ ['=']) ++ (A ++ ['-'])).length + 0 := by
      simp [bytesUnitChars]
      try omega
    rw [h1, h2, drop_len_append]
    rfl
  unfold fromHttpRangeField
  rw [hEq]
  simp only [hUnit, hDash, hSlice1, hSlice2, ne_eq, not_true_eq_false, if_false]
  cases toULongLong A with
  | none => rfl
  | some f =>
    cases toULongLong B with
    | none => rfl
    | some l => rfl

/-! ### Claims C2 and C3 -/

/-- C2 counterexample: the claim says `bytes=900-2000` on a 1000-byte file
is rejected as invalid; `Range::fromHttpRangeField` in fact accepts it as
the range (900, 2000), whose size 1101 exceeds the file size 1000 — the
parser never compares the range against the file size. -/
theorem C2_counterexample :
    fromHttpRangeField ("bytes=900-2000".toList) 1000 = some ⟨900, 2000⟩
    ∧ HttpRange.size ⟨900, 2000⟩ = 1101
    ∧ (1101 : Int) > 1000 := by
  refine ⟨rfl, rfl, ?_⟩
  decide

/-- C2 (amended): `Range::fromHttpRangeField` reports the range invalid when
the `=` separator is missing, the unit is not `bytes`, no `-` separator
follows the unit, the first position is not a non-negative integer, or
`firstBytePos > lastBytePos`; it performs no comparison against the file
size, so `bytes=900-2000` is accepted as (900, 2000) for every file size. -/
theorem C2_amended_range_accept (fileSize : Int) :
    fromHttpRangeField ("bytes=900-2000".toList) fileSize = some ⟨900, 2000⟩
    ∧ fromHttpRangeField ("seconds=900-2000".toList) fileSize = none
    ∧ fromHttpRangeField ("bytes=900".toList) fileSize = none
    ∧ fromHttpRangeField ("bytes=9a0-200".toList) fileSize = none
    ∧ (∀ value : List Char, indexOfFrom value '=' 0 = none →
        fromHttpRangeField value fileSize = none)
    ∧ (∀ a b : Nat, b < a → a < 2 ^ 63 →
        fromHttpRangeField (bytesRangeString a b) fileSize = none) := by
  refine ⟨rfl, rfl, rfl, rfl, ?_, ?_⟩
  · intro value h
    unfold fromHttpRangeField
    rw [h]
  · intro a b hba ha63
    have hb63 : b < 2 ^ 63 := lt_trans hba ha63
    have ha64 : a < 2 ^ 64 := lt_trans ha63 (by norm_num)
    have hb64 : b < 2 ^ 64 := lt_trans hb63 (by norm_num)
    rw [show bytesRangeString a b
        = bytesUnitChars ++ '=' :: (natToChars a ++ '-' :: natToChars b) from rfl,
      fromHttpRangeField_shape _ _ _ (natToChars_no_dash a),
      toULongLong_natToChars a ha64, toULongLong_natToChars b hb64]
    show (if toQint64 a > toQint64 b then none
        else some (HttpRange.mk (toQint64 a) (toQint64 b))) = none
    rw [toQint64, toQint64, if_pos ha63, if_pos hb63,
      if_pos (by exact_mod_cast hba)]

theorem C2_amended_range_accept_witness :
    fromHttpRangeField ("bytes=900-2000".toList) 1000 = some ⟨900, 2000⟩
    ∧ fromHttpRangeField ([] : List Char) 1000 = none
    ∧ fromHttpRangeField (bytesRangeString 2000 900) 1000 = none :=
  ⟨(C2_amended_range_accept 1000).1,
   (C2_amended_range_accept 1000).2.2.2.2.1 [] rfl,
   (C2_amended_range_accept 1000).2.2.2.2.2 2000 900 (by norm_num) (by norm_num)⟩

/-- C3: for every file size `N > 0` and naturals `a ≤ b < N` (with `N` in
`qint64` range), `bytes=<a>-<b>` parses to the pair `(a, b)` of size
`b - a + 1`, and `bytes=<a>-` parses to `(a, N - 1)`. -/
theorem C3_range_parser_roundtrip (fileSize : Int) (a b : Nat)
    (hab : a ≤ b) (hbN : (b : Int) < fileSize) (hN : fileSize < 2 ^ 63) :
    fromHttpRangeField (bytesRangeString a b) fileSize = some ⟨(a : Int), (b : Int)⟩
    ∧ HttpRange.size ⟨(a : Int), (b : Int)⟩ = (b : Int) - (a : Int) + 1
    ∧ fromHttpRangeField (bytesOpenRangeString a) fileSize = some ⟨(a : Int), fileSize - 1⟩ := by
  have hb63 : b < 2 ^ 63 := by exact_mod_cast lt_trans hbN hN
  have ha63 : a < 2 ^ 63 := lt_of_le_of_lt hab hb63
  have ha64 : a < 2 ^ 64 := lt_trans ha63 (by norm_num)
  have hb64 : b < 2 ^ 64 := lt_trans hb63 (by norm_num)
  have hqa : toQint64 a = (a : Int) := by rw [toQint64, if_pos ha63]
  have hqb : toQint64 b = (b : Int) := by rw [toQint64, if_pos hb63]
  refine ⟨?_, rfl, ?_⟩
  · rw [show bytesRangeString a b
        = bytesUnitChars ++ '=' :: (natToChars a ++ '-' :: natToChars b) from rfl,
      fromHttpRangeField_shape _ _ _ (natToChars_no_dash a),
      toULongLong_natToChars a ha64, toULongLong_natToChars b hb64]
    show (if toQint64 a > toQint64 b then none
          else some (HttpRange.mk (toQint64 a) (toQint64 b)))
        = some (HttpRange.mk (a : Int) (b : Int))
    rw [hqa, hqb, if_neg (not_lt.mpr (by exact_mod_cast hab))]
  · rw [show bytesOpenRangeString a
        = bytesUnitChars ++ '=' :: (natToChars a ++ '-' :: []) from rfl,
      fromHttpRangeField_shape _ _ _ (natToChars_no_dash a),
      toULongLong_natToChars a ha64]
    show (if toQint64 a > fileSize - 1 then none
          else some (HttpRange.mk (toQint64 a) (fileSize - 1)))
        = some (HttpRange.mk (a : Int) (fileSize - 1))
    have : (a : Int) ≤ fileSize - 1 := by
      have : (a : Int) ≤ (b : Int) := by exact_mod_cast hab
      omega
    rw [hqa, if_neg (not_lt.mpr this)]

theorem C3_range_parser_roundtrip_witness :
    (150 : Nat) ≤ 349 ∧ ((349 : Nat) : Int) < 1000 ∧ (1000 : Int) < 2 ^ 63
    ∧ (fromHttpRangeField (bytesRangeString 150 349) 1000
        = some ⟨((150 : Nat) : Int), ((349 : Nat) : Int)⟩
      ∧ HttpRange.size ⟨((150 : Nat) : Int), ((349 : Nat) : Int)⟩
        = ((349 : Nat) : Int) - ((150 : Nat) : Int) + 1
      ∧ fromHttpRangeField (bytesOpenRangeString 150) 1000
        = some ⟨((150 : Nat) : Int), (1000 : Int) - 1⟩) :=
  ⟨by norm_num, by norm_num, by norm_num,
   C3_range_parser_roundtrip 1000 150 349 (by norm_num) (by norm_num) (by norm_num)⟩


/-! ## StreamFile read loop (`StreamFile::doRead` / `ReadRequestPrivate::feed`,
streamfile.cpp) -/

/-- Embedding of `BitTorrent::PieceFileInfo`: a file offset mapped to a piece index, a
start offset within the piece, and a length within the piece. -/
structure PieceFileInfo where
  index : Nat
  start : Nat
  length : Nat
deriving DecidableEq

/-- Modelled from the spec: `TorrentInfo::mapFile(fileIndex, offset, length)`
is provided by the external piece store (its implementation is not among the
streaming sources); per §6 and §3 it yields `(pieceIndex,
startOffsetWithinPiece, lengthWithinPiece)` for the file's byte `offset`,
where `fileOffset` is the torrent-global offset of the file's first byte and
`L` the torrent's piece length. -/
def mapFile (fileOffset L offset len : Nat) : PieceFileInfo :=
  let g := fileOffset + offset
  ⟨g / L, g % L, min len (L - g % L)⟩

/-- The torrent's bytes at global offsets `[a, a + n)`. -/
def byteSlice {α : Type} (content : Nat → α) (a : Nat) : Nat → List α
  | 0 => []
  | n + 1 => content a :: byteSlice content (a + 1) n

/-- Modelled from the spec: `Torrent::readPiece(p)` (external piece store)
completes with the raw bytes of piece `p`, the torrent's bytes at
`[p * L, p * L + L)`. -/
def pieceData {α : Type} (content : Nat → α) (L p : Nat) : List α :=
  byteSlice content (p * L) L

/-- The byte block fed by one read step: `doRead` maps
`min(leftSize, pieceLength)` bytes at the current position through `mapFile`,
reads the piece, and the completion handler byteSlices out
`data.mid(pieceInfo.start, pieceInfo.length)`. -/
def readBlock {α : Type} (content : Nat → α) (fileOffset L pos left : Nat) : List α :=
  ((pieceData content L (mapFile fileOffset L pos (min left L)).index).drop
      (mapFile fileOffset L pos (min left L)).start).take
    (mapFile fileOffset L pos (min left L)).length

/-- One argument of a `bytesRead` emission: the block, the file position it
was read at, and the `isLast` flag `(m_leftSize == 0)` computed after `feed`
subtracted the block size. -/
structure FeedBlock (α : Type) where
  offset : Nat
  bytes : List α
  isLast : Bool

/-- The `bytesRead` emission of one read step (`ReadRequestPrivate::feed`). -/
def feedOf {α : Type} (content : Nat → α) (fileOffset L pos left : Nat) : FeedBlock α :=
  { offset := pos
  , bytes := readBlock content fileOffset L pos left
  , isLast := decide (left - (readBlock content fileOffset L pos left).length = 0) }

/-- The unobstructed run of the read loop (`received → doRead →
PieceRequest::complete → feed → … `), collecting every `bytesRead` emission.
`doRead` returns immediately once `leftSize` reaches zero.  The explicit
`fuel` only serves Lean's termination; every step feeds at least one byte, so
`fuel = left` is always enough (`doReadRun_spec`). -/
def doReadRun {α : Type} (content : Nat → α) (fileOffset L : Nat) :
    Nat → Nat → Nat → List (FeedBlock α)
  | 0, _, _ => []
  | fuel + 1, pos, left =>
    if left = 0 then []
    else
      feedOf content fileOffset L pos left ::
        doReadRun content fileOffset L fuel
          (pos + (readBlock content fileOffset L pos left).length)
          (left - (readBlock content fileOffset L pos left).length)

/-- Blocks are delivered at strictly increasing offsets with no gaps or
overlaps: each starts exactly where the previous one ended and none is
empty. -/
def blocksChained {α : Type} : Nat → List (FeedBlock α) → Prop
  | _, [] => True
  | start, b :: bs =>
    b.offset = start ∧ b.bytes ≠ [] ∧ blocksChained (start + b.bytes.length) bs

/-- Exactly the final block carries the `isLast` flag. -/
def lastFlagsOk {α : Type} : List (FeedBlock α) → Prop
  | [] => True
  | b :: bs => b.isLast = bs.isEmpty ∧ lastFlagsOk bs

theorem byteSlice_length {α : Type} (c : Nat → α) (a : Nat) :
    ∀ n, (byteSlice c a n).length = n := by
  intro n
  induction n generalizing a with
  | zero => rfl
  | succ n ih => simp [byteSlice, ih]

theorem byteSlice_add {α : Type} (c : Nat → α) :
    ∀ m a n, byteSlice c a (m + n) = byteSlice c a m ++ byteSlice c (a + m) n := by
  intro m
  induction m with
  | zero => intro a n; simp [byteSlice]
  | succ m ih =>
    intro a n
    rw [show m + 1 + n = (m + n) + 1 by omega]
    simp only [byteSlice, List.cons_append, ih (a + 1) n]
    rw [show a + 1 + m = a + (m + 1) by omega]

theorem byteSlice_drop {α : Type} (c : Nat → α) :
    ∀ k a n, (byteSlice c a n).drop k = byteSlice c (a + k) (n - k) := by
  intro k
  induction k with
  | zero => intro a n; simp
  | succ k ih =>
    intro a n
    cases n with
    | zero => simp [byteSlice]
    | succ n =>
      simp only [byteSlice, List.drop_succ_cons, ih (a + 1) n]
      rw [show a + 1 + k = a + (k + 1) by omega]
      congr 1
      omega

theorem byteSlice_take {α : Type} (c : Nat → α) :
    ∀ k a n, (byteSlice c a n).take k = byteSlice c a (min k n) := by
  intro k
  induction k with
  | zero => intro a n; simp [byteSlice]
  | succ k ih =>
    intro a n
    cases n with
    | zero => simp [byteSlice]
    | succ n =>
      simp only [byteSlice, List.take_succ_cons, ih (a + 1) n]
      rw [show min (k + 1) (n + 1) = min k n + 1 by omega]
      simp [byteSlice]

theorem readBlock_eq_byteSlice {α : Type} (content : Nat → α) (fileOffset L pos left : Nat)
    (hL : 0 < L) :
    readBlock content fileOffset L pos left
      = byteSlice content (fileOffset + pos)
          (min (min left L) (L - (fileOffset + pos) % L)) := by
  unfold readBlock pieceData mapFile
  simp only []
  rw [byteSlice_drop, byteSlice_take, Nat.div_add_mod']
  congr 1
  omega

theorem readBlock_length {α : Type} (content : Nat → α) (fileOffset L pos left : Nat)
    (hL : 0 < L) :
    (readBlock content fileOffset L pos left).length
      = min (min left L) (L - (fileOffset + pos) % L) := by
  rw [readBlock_eq_byteSlice content fileOffset L pos left hL, byteSlice_length]

theorem readBlock_length_pos {α : Type} (content : Nat → α) (fileOffset L pos left : Nat)
    (hL : 0 < L) (hleft : left ≠ 0) :
    1 ≤ (readBlock content fileOffset L pos left).length
    ∧ (readBlock content fileOffset L pos left).length ≤ left := by
  rw [readBlock_length content fileOffset L pos left hL]
  have := Nat.mod_lt (fileOffset + pos) hL
  omega

/-- Full characterization of the read loop on `fuel ≥ left`: byte-exactness,
total length, contiguity, last-flag placement, and emptiness. -/
theorem doReadRun_spec {α : Type} (content : Nat → α) (fileOffset L : Nat) (hL : 0 < L) :
    ∀ fuel pos left, left ≤ fuel →
      ((doReadRun content fileOffset L fuel pos left).map FeedBlock.bytes).flatten
          = byteSlice content (fileOffset + pos) left
      ∧ ((doReadRun content fileOffset L fuel pos left).map
          (fun b => b.bytes.length)).sum = left
      ∧ blocksChained pos (doReadRun content fileOffset L fuel pos left)
      ∧ lastFlagsOk (doReadRun content fileOffset L fuel pos left)
      ∧ (doReadRun content fileOffset L fuel pos left).isEmpty = decide (left = 0) := by
  intro fuel
  induction fuel with
  | zero =>
    intro pos left hle
    have h0 : left = 0 := Nat.le_zero.mp hle
    subst h0
    simp [doReadRun, byteSlice, blocksChained, lastFlagsOk]
  | succ fuel ih =>
    intro pos left hle
    by_cases h0 : left = 0
    · subst h0
      simp [doReadRun, byteSlice, blocksChained, lastFlagsOk]
    · obtain ⟨hn1, hnle⟩ := readBlock_length_pos content fileOffset L pos left hL h0
      obtain ⟨ih1, ih2, ih3, ih4, ih5⟩ :=
        ih (pos + (readBlock content fileOffset L pos left).length)
           (left - (readBlock content fileOffset L pos left).length) (by omega)
      have hstep : doReadRun content fileOffset L (fuel + 1) pos left
          = feedOf content fileOffset L pos left ::
              doReadRun content fileOffset L fuel
                (pos + (readBlock content fileOffset L pos left).length)
                (left - (readBlock content fileOffset L pos left).length) := by
        simp only [doReadRun, if_neg h0]
      have hblock : readBlock content fileOffset L pos left
          = byteSlice content (fileOffset + pos)
              ((readBlock content fileOffset L pos left).length) := by
        rw [readBlock_length content fileOffset L pos left hL,
          readBlock_eq_byteSlice content fileOffset L pos left hL]
      set len := (readBlock content fileOffset L pos left).length with hlen
      refine ⟨?_, ?_, ?_, ?_, ?_⟩
      · rw [hstep]
        simp only [List.map_cons, List.flatten_cons, ih1, feedOf]
        rw [hblock, show fileOffset + (pos + len) = (fileOffset + pos) + len by omega,
          ← byteSlice_add]
        congr 1
        omega
      · rw [hstep]
        simp only [List.map_cons, List.sum_cons, ih2, feedOf]
        rw [← hlen]
        omega
      · rw [hstep]
        simp only [blocksChained, feedOf]
        refine ⟨by trivial, List.ne_nil_of_length_pos (by rw [← hlen]; omega), ?_⟩
        rw [← hlen]
        exact ih3
      · rw [hstep]
        simp only [lastFlagsOk, feedOf]
        rw [← hlen]
        exact ⟨ih5.symm, ih4⟩
      · rw [hstep]
        simp [h0]

/-- C1: for every `ReadCursor` created by `StreamFile::read(position, size)`
with `position + size ≤ size()`, the run of the read loop feeds, per step,
the `(startInPiece, lengthInPiece)` sub-slice of the completed piece (see
`readBlock`), and: the concatenation of all blocks emitted via `bytesRead`
is exactly the file's byte range `[position, position + size)`; the total
delivered length is exactly `size`; blocks arrive at strictly increasing
offsets with no gaps or overlaps; and the `isLast` flag is set on exactly
the final block, the one whose `feed` takes the remaining count to zero. -/
theorem C1_read_cursor_byte_exact {α : Type} (content : Nat → α)
    (fileOffset L position size fileSize : Nat)
    (hL : 0 < L) (_hbound : position + size ≤ fileSize) :
    ((doReadRun content fileOffset L size position size).map FeedBlock.bytes).flatten
        = byteSlice content (fileOffset + position) size
    ∧ ((doReadRun content fileOffset L size position size).map
        (fun b => b.bytes.length)).sum = size
    ∧ blocksChained position (doReadRun content fileOffset L size position size)
    ∧ lastFlagsOk (doReadRun content fileOffset L size position size) := by
  obtain ⟨h1, h2, h3, h4, _⟩ := doReadRun_spec content fileOffset L hL size position size le_rfl
  exact ⟨h1, h2, h3, h4⟩

theorem C1_read_cursor_byte_exact_witness :
    0 < 4 ∧ 2 + 10 ≤ 12
    ∧ (((doReadRun (fun i => i) 3 4 10 2 10).map FeedBlock.bytes).flatten
          = byteSlice (fun i => i) (3 + 2) 10
      ∧ ((doReadRun (fun i => i) 3 4 10 2 10).map
          (fun b => b.bytes.length)).sum = 10
      ∧ blocksChained 2 (doReadRun (fun i => i) 3 4 10 2 10)
      ∧ lastFlagsOk (doReadRun (fun i => i) 3 4 10 2 10)) :=
  ⟨by decide, by decide,
   C1_read_cursor_byte_exact (fun i => i) 3 4 2 10 12 (by decide) (by decide)⟩

/-! ## StreamingManager registry (`StreamingManager::removeServingTorrent`,
streamingmanager.cpp) -/

/-- An entry of `StreamingManager::m_files`: a `StreamFile`, identified by
its owning torrent and its file index within the torrent. -/
structure StreamFileEntry where
  torrent : Nat
  fileIndex : Nat
deriving DecidableEq

/-- Embedding of `StreamingManager::removeServingTorrent(torrent)`: the iterator loop
over `m_files` that deletes and erases every entry owned by `torrent` and
advances past every other entry. -/
def removeServingTorrent (t : Nat) : List StreamFileEntry → List StreamFileEntry
  | [] => []
  | f :: fs =>
    if f.torrent ≠ t then f :: removeServingTorrent t fs
    else removeServingTorrent t fs

/-- C10: `removeServingTorrent(torrent)` erases exactly the registered
`StreamFile`s owned by the removed torrent; every file of any other torrent
stays in the registry, unchanged and in its original order (the result is a
sublist of the original registry). -/
theorem C10_remove_serving_torrent (t : Nat) (fs : List StreamFileEntry) :
    removeServingTorrent t fs = fs.filter (fun f => f.torrent != t)
    ∧ (∀ f, f ∈ removeServingTorrent t fs ↔ f ∈ fs ∧ f.torrent ≠ t)
    ∧ List.Sublist (removeServingTorrent t fs) fs := by
  have hfilter : removeServingTorrent t fs = fs.filter (fun f => f.torrent != t) := by
    induction fs with
    | nil => rfl
    | cons f fs ih =>
      by_cases h : f.torrent = t
      · simp [removeServingTorrent, List.filter_cons, h, ih]
      · simp [removeServingTorrent, List.filter_cons, h, ih]
  refine ⟨hfilter, ?_, ?_⟩
  · intro f
    rw [hfilter, List.mem_filter]
    simp
  · rw [hfilter]
    exact List.filter_sublist _

/-! ## Adaptive piece deadline (`StreamFile::doRead`, adaptive-deadline
variant of streamfile.cpp) -/

def MIN_DEADLINE_TIME : Int := 32

def MAX_DEADLINE_TIME : Int := 320

/-- Embedding of the `qint64 → int` narrowing conversion forced by the
explicit template argument in `std::max<int>(request->timeSinceLastFeed(),
MIN_DEADLINE_TIME)`: two's-complement wrap of the 64-bit elapsed time into
`[-2^31, 2^31)`. -/
def toCInt (e : Int) : Int := (e + 2 ^ 31) % 2 ^ 32 - 2 ^ 31

/-- The deadline assigned to the currently-blocking piece on a read step:
`std::min<int>(std::max<int>(request->timeSinceLastFeed(), MIN_DEADLINE_TIME),
MAX_DEADLINE_TIME)`, with `timeSinceLastFeed()` a `qint64` narrowed to `int`
by the `std::max<int>` template argument. -/
def deadlineTimeOf (elapsed : Int) : Int :=
  min (max (toCInt elapsed) MIN_DEADLINE_TIME) MAX_DEADLINE_TIME

/-- C7 counterexample: the claim says a slower feed (longer elapsed time)
yields a more urgent, numerically shorter deadline.  With elapsed times 40
and 200 the code assigns deadlines 40 and 200: the slower feed receives the
numerically longer deadline, not a shorter one. -/
theorem C7_counterexample :
    deadlineTimeOf 40 = 40 ∧ deadlineTimeOf 200 = 200
    ∧ ¬ (deadlineTimeOf 200 < deadlineTimeOf 40) := by decide

/-- C7 (amended): the deadline assigned to the currently-blocking piece is
the elapsed time since the previous successful feed, narrowed to `int` and
clamped to `[MIN_DEADLINE_TIME, MAX_DEADLINE_TIME]`.  On the `int` range of
elapsed times, `0 ≤ elapsed < 2^31` ms, it scales monotonically
NON-DECREASINGLY — slower feeds yield numerically longer deadlines, faster
feeds shorter ones — and equals the elapsed time exactly on the clamp
interval; at `elapsed = 2^31` ms the narrowing wraps and the deadline drops
from `MAX_DEADLINE_TIME` back to `MIN_DEADLINE_TIME`. -/
theorem C7_amended_deadline_clamped_monotone (a b : Int)
    (ha : 0 ≤ a) (hab : a ≤ b) (hb : b < 2 ^ 31) :
    (∀ e : Int, MIN_DEADLINE_TIME ≤ deadlineTimeOf e ∧ deadlineTimeOf e ≤ MAX_DEADLINE_TIME)
    ∧ deadlineTimeOf a ≤ deadlineTimeOf b
    ∧ (MIN_DEADLINE_TIME ≤ a → a ≤ MAX_DEADLINE_TIME → deadlineTimeOf a = a)
    ∧ deadlineTimeOf (2 ^ 31 - 1) = MAX_DEADLINE_TIME
    ∧ deadlineTimeOf (2 ^ 31) = MIN_DEADLINE_TIME := by
  unfold deadlineTimeOf toCInt MIN_DEADLINE_TIME MAX_DEADLINE_TIME
  refine ⟨fun e => ?_, ?_, ?_, ?_, ?_⟩ <;> omega

theorem C7_amended_deadline_clamped_monotone_witness :
    (0 : Int) ≤ 40 ∧ (40 : Int) ≤ 200 ∧ (200 : Int) < 2 ^ 31
    ∧ ((∀ e : Int, MIN_DEADLINE_TIME ≤ deadlineTimeOf e
          ∧ deadlineTimeOf e ≤ MAX_DEADLINE_TIME)
      ∧ deadlineTimeOf 40 ≤ deadlineTimeOf 200
      ∧ (MIN_DEADLINE_TIME ≤ (40 : Int) → (40 : Int) ≤ MAX_DEADLINE_TIME
          → deadlineTimeOf 40 = 40)
      ∧ deadlineTimeOf (2 ^ 31 - 1) = MAX_DEADLINE_TIME
      ∧ deadlineTimeOf (2 ^ 31) = MIN_DEADLINE_TIME) :=
  ⟨by decide, by decide, by decide,
   C7_amended_deadline_clamped_monotone 40 200 (by decide) (by decide) (by decide)⟩

/-! ## Lookahead window (`StreamFile::doRead`, advance-range block) -/

def BUFFER_SIZE : Nat := 32 * 1024 * 1024

/-- One `setPieceDeadline(index, deadline, critical)` call issued to the
torrent. -/
structure DeadlineCall where
  index : Nat
  deadline : Nat
  critical : Bool
deriving DecidableEq

/-- The list `[a, a + 1, …, b]` (empty when `b < a`): the iteration domain of a C++
loop `for (i = a; i <= b; i++)`. -/
def rangeList (a b : Nat) : List Nat :=
  (List.range (b + 1 - a)).map (a + ·)

/-- The advance loop of `doRead`:
`for (i = 1, pieceIndex = start; pieceIndex <= end; pieceIndex++, i++)
if (!havePiece(pieceIndex)) setPieceDeadline(pieceIndex, deadlineTime * (i + 1), false)`,
with `cnt` the number of remaining iterations. -/
def advanceLoop (havePiece : Nat → Bool) (deadlineTime : Nat) :
    Nat → Nat → Nat → List DeadlineCall
  | 0, _, _ => []
  | cnt + 1, p, i =>
    (if havePiece p then [] else [⟨p, deadlineTime * (i + 1), false⟩])
      ++ advanceLoop havePiece deadlineTime cnt (p + 1) (i + 1)

/-- The window size bound
`std::ceil(BUFFER_SIZE / static_cast<double>(pieceLength))` as the exact
ceiling division.  For every positive `int` piece length the IEEE-double
quotient carries a relative error below `2^-53`, smaller than the distance
from `BUFFER_SIZE / L` to any other integer (at least `1 / L > 2^-31`), and
the quotient is exactly representable whenever it is an integer, so the
floating-point ceil always equals the exact ceiling. -/
def windowCount (L : Nat) : Nat := (BUFFER_SIZE + L - 1) / L

/-- One read step of `doRead` viewed through its piece-priority effects:
the current piece is either read immediately (`readPiece`, when available)
or given a critical deadline; when the current piece precedes the file's
last piece, the advance window
`[index + 1, min(index + ceil(BUFFER_SIZE / L), lastPiece)]` is stored on
the request and every not-yet-available piece in it receives a non-critical
deadline. -/
structure DoReadStep where
  currentCall : Option DeadlineCall
  readImmediately : Bool
  window : Option (Nat × Nat)
  windowCalls : List DeadlineCall
deriving DecidableEq

def doReadPriorityStep (havePiece : Nat → Bool)
    (fileOffset L lastPiece deadlineTime pos left : Nat) : DoReadStep :=
  let cur := (mapFile fileOffset L pos (min left L)).index
  { currentCall := if havePiece cur then none else some ⟨cur, deadlineTime, true⟩
  , readImmediately := havePiece cur
  , window :=
      if cur < lastPiece then some (cur + 1, min (cur + windowCount L) lastPiece)
      else none
  , windowCalls :=
      if cur < lastPiece then
        advanceLoop havePiece deadlineTime
          (min (cur + windowCount L) lastPiece + 1 - (cur + 1)) (cur + 1) 1
      else [] }

theorem advanceLoop_map_index (havePiece : Nat → Bool) (d : Nat) :
    ∀ cnt a i, (advanceLoop havePiece d cnt a i).map DeadlineCall.index
      = ((List.range cnt).map (a + ·)).filter (fun p => !havePiece p) := by
  intro cnt
  induction cnt with
  | zero => intro a i; rfl
  | succ cnt ih =>
    intro a i
    simp only [advanceLoop, List.map_append, ih (a + 1) (i + 1)]
    rw [List.range_succ_eq_map, List.map_cons, List.map_map, List.filter_cons]
    have hmap : (List.range cnt).map ((a + ·) ∘ Nat.succ)
        = (List.range cnt).map ((a + 1) + ·) :=
      List.map_congr_left (fun x _ => by simp [Function.comp]; omega)
    rw [hmap]
    by_cases h : havePiece a
    · simp [h]
    · simp [h]

theorem mem_rangeList {a b p : Nat} : p ∈ rangeList a b ↔ a ≤ p ∧ p ≤ b := by
  simp only [rangeList, List.mem_map, List.mem_range]
  constructor
  · rintro ⟨i, hi, rfl⟩
    omega
  · rintro ⟨h1, h2⟩
    exact ⟨p - a, by omega, by omega⟩

theorem rangeList_length (a b : Nat) : (rangeList a b).length = b + 1 - a := by
  simp [rangeList]

/-- C6 (amended): per read step, the advance window is the contiguous run
starting immediately after the piece being read and capped at
`min(index + ceil(BUFFER_SIZE / pieceLength), lastPiece)`; the pieces placed
at elevated priority are exactly the NOT-YET-AVAILABLE pieces of that run
(available pieces are skipped), so they number at most
`ceil(BUFFER_SIZE / pieceLength)`, all lie strictly after the current piece
and never beyond the file's last piece; and when the piece being read is the
file's last piece, no window is stored and no lookahead piece is
prioritized. -/
theorem C6_amended_lookahead_window (havePiece : Nat → Bool)
    (fileOffset L lastPiece deadlineTime pos left cur stop : Nat)
    (hcur : cur = (mapFile fileOffset L pos (min left L)).index)
    (hstop : stop = min (cur + windowCount L) lastPiece) :
    (cur < lastPiece →
      (doReadPriorityStep havePiece fileOffset L lastPiece deadlineTime pos left).window
          = some (cur + 1, stop)
      ∧ ((doReadPriorityStep havePiece fileOffset L lastPiece deadlineTime pos
            left).windowCalls.map DeadlineCall.index)
          = (rangeList (cur + 1) stop).filter (fun p => !havePiece p)
      ∧ (doReadPriorityStep havePiece fileOffset L lastPiece deadlineTime pos
            left).windowCalls.length ≤ windowCount L
      ∧ ∀ c ∈ (doReadPriorityStep havePiece fileOffset L lastPiece deadlineTime pos
            left).windowCalls, cur + 1 ≤ c.index ∧ c.index ≤ lastPiece)
    ∧ (¬ cur < lastPiece →
      (doReadPriorityStep havePiece fileOffset L lastPiece deadlineTime pos
          left).window = none
      ∧ (doReadPriorityStep havePiece fileOffset L lastPiece deadlineTime pos
          left).windowCalls = []) := by
  subst hcur
  subst hstop
  constructor
  · intro hlt
    have hwin : (doReadPriorityStep havePiece fileOffset L lastPiece deadlineTime pos
        left).window = some ((mapFile fileOffset L pos (min left L)).index + 1,
          min ((mapFile fileOffset L pos (min left L)).index + windowCount L) lastPiece) := by
      simp [doReadPriorityStep, hlt]
    have hcalls : (doReadPriorityStep havePiece fileOffset L lastPiece deadlineTime pos
        left).windowCalls = advanceLoop havePiece deadlineTime
          (min ((mapFile fileOffset L pos (min left L)).index + windowCount L) lastPiece + 1
            - ((mapFile fileOffset L pos (min left L)).index + 1))
          ((mapFile fileOffset L pos (min left L)).index + 1) 1 := by
      simp [doReadPriorityStep, hlt]
    have hmapidx : ((doReadPriorityStep havePiece fileOffset L lastPiece deadlineTime pos
        left).windowCalls.map DeadlineCall.index)
        = (rangeList ((mapFile fileOffset L pos (min left L)).index + 1)
            (min ((mapFile fileOffset L pos (min left L)).index + windowCount L)
              lastPiece)).filter (fun p => !havePiece p) := by
      rw [hcalls, advanceLoop_map_index, rangeList]
    refine ⟨hwin, hmapidx, ?_, ?_⟩
    · have h1 : (doReadPriorityStep havePiece fileOffset L lastPiece deadlineTime pos
          left).windowCalls.length
          = ((doReadPriorityStep havePiece fileOffset L lastPiece deadlineTime pos
              left).windowCalls.map DeadlineCall.index).length := (List.length_map _ _).symm
      rw [h1, hmapidx]
      have h2 := List.length_filter_le (fun p => !havePiece p)
        (rangeList ((mapFile fileOffset L pos (min left L)).index + 1)
          (min ((mapFile fileOffset L pos (min left L)).index + windowCount L) lastPiece))
      rw [rangeList_length] at h2
      omega
    · intro c hc
      have hidx : c.index ∈ ((doReadPriorityStep havePiece fileOffset L lastPiece
          deadlineTime pos left).windowCalls.map DeadlineCall.index) :=
        List.mem_map_of_mem DeadlineCall.index hc
      rw [hmapidx] at hidx
      have hmem := List.mem_of_mem_filter hidx
      rw [mem_rangeList] at hmem
      omega
  · intro hge
    constructor
    · simp [doReadPriorityStep, hge]
    · simp [doReadPriorityStep, hge]

/-- C6 counterexample: with piece 1 already available, the current piece
being 0 and the window being `[1, 2]`, the set of pieces actually placed at
elevated priority is `{2}` — it does not contain piece 1 and hence is not a
contiguous run starting at the piece immediately after the one being read,
as the claim states. -/
theorem C6_counterexample :
    ((doReadPriorityStep (fun p => p == 1) 0 (16 * 1024 * 1024) 5 8 0
        1000000000).windowCalls.map DeadlineCall.index) = [2]
    ∧ (doReadPriorityStep (fun p => p == 1) 0 (16 * 1024 * 1024) 5 8 0
        1000000000).window = some (1, 2)
    ∧ ¬ ((1 : Nat) ∈ ((doReadPriorityStep (fun p => p == 1) 0 (16 * 1024 * 1024) 5 8 0
        1000000000).windowCalls.map DeadlineCall.index)) := by decide

theorem C6_amended_lookahead_window_witness :
    ((0 : Nat) = (mapFile 0 (16 * 1024 * 1024) 0 (min 1000000000 (16 * 1024 * 1024))).index)
    ∧ ((2 : Nat) = min (0 + windowCount (16 * 1024 * 1024)) 5)
    ∧ (((0 : Nat) < 5 →
        (doReadPriorityStep (fun _ => false) 0 (16 * 1024 * 1024) 5 8 0
            1000000000).window = some (0 + 1, 2)
        ∧ ((doReadPriorityStep (fun _ => false) 0 (16 * 1024 * 1024) 5 8 0
              1000000000).windowCalls.map DeadlineCall.index)
            = (rangeList (0 + 1) 2).filter (fun p => !(fun _ => false) p)
        ∧ (doReadPriorityStep (fun _ => false) 0 (16 * 1024 * 1024) 5 8 0
              1000000000).windowCalls.length ≤ windowCount (16 * 1024 * 1024)
        ∧ ∀ c ∈ (doReadPriorityStep (fun _ => false) 0 (16 * 1024 * 1024) 5 8 0
              1000000000).windowCalls, 0 + 1 ≤ c.index ∧ c.index ≤ 5)
      ∧ (¬ (0 : Nat) < 5 →
        (doReadPriorityStep (fun _ => false) 0 (16 * 1024 * 1024) 5 8 0
            1000000000).window = none
        ∧ (doReadPriorityStep (fun _ => false) 0 (16 * 1024 * 1024) 5 8 0
            1000000000).windowCalls = [])) :=
  ⟨by decide, by decide,
   C6_amended_lookahead_window (fun _ => false) 0 (16 * 1024 * 1024) 5 8 0 1000000000 0 2
     (by decide) (by decide)⟩

/-! ## Cancellation (`~ReadRequestPrivate` and the `cancelled` handler wired
in `StreamFile::read`) -/

/-- The `PieceRange` stored on the request (`m_advanceRange`), with the
source's `-1` sentinels for "never set".  The source names the second field
`end`, a Lean keyword; it is rendered `stop` here. -/
structure StoredPieceRange where
  start : Int := -1
  stop : Int := -1
deriving DecidableEq

/-- The list `[a, a + 1, …, b]` over `Int` (empty when `b < a`). -/
def rangeListInt (a b : Int) : List Int :=
  (List.range (b + 1 - a).toNat).map (fun i : Nat => a + (i : Int))

/-- The `cancelled` handler wired in `StreamFile::read`: if the stored range
is unset (`start == -1 || end == -1`) nothing is reset, otherwise
`resetPieceDeadline(i)` runs for `i = start, …, end`. -/
def cancelResets (range : StoredPieceRange) : List Int :=
  if range.start = -1 ∨ range.stop = -1 then []
  else rangeListInt range.start range.stop

/-- Embedding of `~ReadRequestPrivate`: `cancelled` is emitted — and the resets run —
exactly when `leftSize() != 0` at destruction. -/
def destructorResets (leftSize : Nat) (range : StoredPieceRange) : List Int :=
  if leftSize ≠ 0 then cancelResets range else []

/-- C5 counterexample: a cursor whose current piece 0 is unavailable
prioritizes it with a critical deadline and stores the window `[1, 2]`;
destroying the cursor mid-flight resets exactly pieces 1 and 2 — the
prioritized piece 0 is never reset, contradicting the claim that every
prioritized piece index is reset. -/
theorem C5_counterexample :
    (doReadPriorityStep (fun _ => false) 0 (16 * 1024 * 1024) 3 8 0 1000).currentCall
        = some ⟨0, 8, true⟩
    ∧ (doReadPriorityStep (fun _ => false) 0 (16 * 1024 * 1024) 3 8 0 1000).window
        = some (1, 2)
    ∧ destructorResets 1000 ⟨1, 2⟩ = [1, 2]
    ∧ ¬ ((0 : Int) ∈ destructorResets 1000 ⟨1, 2⟩) := by decide

/-- C5 (amended): destroying a `ReadRequest` with a non-zero remaining count
resets exactly the piece indices of the most recently stored advance window,
each exactly once; destruction after the remaining count reached zero resets
nothing, and neither does destruction before any window was stored; the
critical deadline of the currently read piece is not reset. -/
theorem C5_amended_cancel_resets (leftSize : Nat) (a b : Int)
    (ha : 0 ≤ a) (hab : a ≤ b) (hleft : leftSize ≠ 0) :
    (∀ i : Int, (destructorResets leftSize ⟨a, b⟩).count i
        = if a ≤ i ∧ i ≤ b then 1 else 0)
    ∧ destructorResets 0 ⟨a, b⟩ = []
    ∧ destructorResets leftSize ⟨-1, -1⟩ = [] := by
  have hset : destructorResets leftSize ⟨a, b⟩ = rangeListInt a b := by
    rw [destructorResets, if_pos hleft, cancelResets,
      if_neg (by push_neg; constructor <;> (simp only []; omega))]
  have hinj : Function.Injective (fun i : Nat => a + (i : Int)) := by
    intro i j hij
    simp only [] at hij
    omega
  have hnodup : (rangeListInt a b).Nodup := by
    unfold rangeListInt
    exact (List.nodup_range _).map hinj
  have hmem : ∀ i : Int, i ∈ rangeListInt a b ↔ a ≤ i ∧ i ≤ b := by
    intro i
    simp only [rangeListInt, List.mem_map, List.mem_range]
    constructor
    · rintro ⟨k, hk, rfl⟩
      omega
    · rintro ⟨h1, h2⟩
      exact ⟨(i - a).toNat, by omega, by omega⟩
  refine ⟨?_, by simp [destructorResets], by simp [destructorResets, cancelResets, hleft]⟩
  intro i
  rw [hset]
  by_cases hi : a ≤ i ∧ i ≤ b
  · rw [if_pos hi]
    exact List.count_eq_one_of_mem hnodup ((hmem i).mpr hi)
  · rw [if_neg hi]
    exact List.count_eq_zero_of_not_mem (fun hmem2 => hi ((hmem i).mp hmem2))

theorem C5_amended_cancel_resets_witness :
    (0 : Int) ≤ 1 ∧ (1 : Int) ≤ 2 ∧ (5 : Nat) ≠ 0
    ∧ ((∀ i : Int, (destructorResets 5 ⟨1, 2⟩).count i
          = if 1 ≤ i ∧ i ≤ 2 then 1 else 0)
      ∧ destructorResets 0 ⟨1, 2⟩ = []
      ∧ destructorResets 5 ⟨-1, -1⟩ = []) :=
  ⟨by decide, by decide, by decide,
   C5_amended_cancel_resets 5 1 2 (by decide) (by decide) (by decide)⟩

/-! ## Cursor/connection event loop (`ReadRequest`'s block-pending flag,
`StreamFile::read`'s `received` wiring, and `StreamingManager::doGet`'s
`bytesWritten` handler) -/

/-- Events observable by one cursor: the in-flight piece request completing
(`PieceRequest::complete` → `feed`), the sink reporting written bytes
together with its current queue depth (`Http::Connection::bytesWritten`,
queried via `connection->bytesToWrite()`), and the piece request failing
(`PieceRequest::error`). -/
inductive CursorEvent where
  | pieceDone
  | sinkWritten (bytesToWrite : Nat)
  | pieceError
deriving DecidableEq

/-- Cursor state: `m_currentPosition`, `m_leftSize`, the block-pending flag
`m_isBlockPending` (set by `feed`, cleared by `notifyBlockReceived`), and
the number of outstanding current-piece requests (one is created per
`doRead` entered with `leftSize != 0`). -/
structure CursorState where
  pos : Nat
  left : Nat
  blockPending : Bool
  inFlight : Nat
deriving DecidableEq

/-- Embedding of `StreamFile::read(position, size)`: builds the request and immediately
runs the first `doRead`, which issues one piece request unless `size = 0`. -/
def initCursor (position size : Nat) : CursorState :=
  { pos := position, left := size, blockPending := false
  , inFlight := if size = 0 then 0 else 1 }

/-- One event step; returns the new state and whether a new read step (a new
current-piece request) was issued.  `pieceDone` runs `feed`: advance the
position, decrement the remaining count by the fed block's size
(`pieceInfo.length`), set the block-pending flag.  `sinkWritten q` runs the
`doGet` handler `if (connection->bytesToWrite() < pieceLength &&
readRequest->outstandingRead()) readRequest->notifyBlockReceived()`, whose
`received` signal runs `doRead` — which issues a new piece request only when
the remaining count is non-zero.  `pieceError` only tears the piece request
down.  The advance-window deadline calls of `doRead` are priority hints that
create no tracked piece request and so never touch `inFlight`. -/
def cursorStep (L fileOffset : Nat) (s : CursorState) :
    CursorEvent → CursorState × Bool
  | .pieceDone =>
    if s.inFlight = 0 then (s, false)
    else
      ({ pos := s.pos + (mapFile fileOffset L s.pos (min s.left L)).length
       , left := s.left - (mapFile fileOffset L s.pos (min s.left L)).length
       , blockPending := true
       , inFlight := s.inFlight - 1 }, false)
  | .sinkWritten q =>
    if q < L ∧ s.blockPending = true then
      if s.left = 0 then ({ s with blockPending := false }, false)
      else ({ s with blockPending := false, inFlight := s.inFlight + 1 }, true)
    else (s, false)
  | .pieceError =>
    if s.inFlight = 0 then (s, false)
    else ({ s with inFlight := s.inFlight - 1 }, false)

/-- The fold of `cursorStep` over an event list, collecting each event's
"new read step issued" flag. -/
def cursorRun (L fileOffset : Nat) : CursorState → List CursorEvent → CursorState × List Bool
  | s, [] => (s, [])
  | s, e :: es =>
    ((cursorRun L fileOffset (cursorStep L fileOffset s e).1 es).1,
      (cursorStep L fileOffset s e).2 ::
        (cursorRun L fileOffset (cursorStep L fileOffset s e).1 es).2)

/-- The single-outstanding-read invariant: at most one current-piece request
in flight, and none while a fed block awaits its sink acknowledgement. -/
def cursorInv (s : CursorState) : Prop :=
  s.inFlight ≤ 1 ∧ (s.blockPending = true → s.inFlight = 0)

theorem cursorStep_inv (L fileOffset : Nat) (s : CursorState) (e : CursorEvent)
    (h : cursorInv s) : cursorInv (cursorStep L fileOffset s e).1 := by
  obtain ⟨h1, h2⟩ := h
  cases e with
  | pieceDone =>
    by_cases h0 : s.inFlight = 0
    · simp only [cursorStep, if_pos h0]
      exact ⟨h1, h2⟩
    · simp only [cursorStep, if_neg h0]
      refine ⟨?_, fun _ => ?_⟩
      · show s.inFlight - 1 ≤ 1
        omega
      · show s.inFlight - 1 = 0
        omega
  | sinkWritten q =>
    by_cases hc : q < L ∧ s.blockPending = true
    · by_cases h0 : s.left = 0
      · simp only [cursorStep, if_pos hc, if_pos h0]
        refine ⟨h1, fun hb => ?_⟩
        exact Bool.noConfusion (show (false : Bool) = true from hb)
      · simp only [cursorStep, if_pos hc, if_neg h0]
        refine ⟨?_, fun hb => ?_⟩
        · show s.inFlight + 1 ≤ 1
          have := h2 hc.2
          omega
        · exact Bool.noConfusion (show (false : Bool) = true from hb)
    · simp only [cursorStep, if_neg hc]
      exact ⟨h1, h2⟩
  | pieceError =>
    by_cases h0 : s.inFlight = 0
    · simp only [cursorStep, if_pos h0]
      exact ⟨h1, h2⟩
    · simp only [cursorStep, if_neg h0]
      refine ⟨?_, fun hb => ?_⟩
      · show s.inFlight - 1 ≤ 1
        omega
      · show s.inFlight - 1 = 0
        have := h2 (show s.blockPending = true from hb)
        omega

theorem cursorRun_inv (L fileOffset : Nat) :
    ∀ events s, cursorInv s → cursorInv (cursorRun L fileOffset s events).1 := by
  intro events
  induction events with
  | nil => intro s h; exact h
  | cons e es ih =>
    intro s h
    exact ih _ (cursorStep_inv L fileOffset s e h)

/-- C9: for every cursor and every event sequence, at most one current-piece
read request is outstanding at any moment.  In the model a new read step is
issued only by the `sinkWritten` transition via `received`, which fires only
when `notifyBlockReceived` clears the block-pending flag that the previous
`feed` set (see `cursorStep`); the lookahead deadline calls never create a
request.  Consequently every state reachable from
`initCursor position size` satisfies `inFlight ≤ 1`. -/
theorem C9_single_outstanding_read (L fileOffset position size : Nat)
    (events : List CursorEvent) :
    (cursorRun L fileOffset (initCursor position size) events).1.inFlight ≤ 1 := by
  have hinit : cursorInv (initCursor position size) := by
    refine ⟨?_, fun hb => ?_⟩
    · show (if size = 0 then 0 else 1) ≤ 1
      split <;> omega
    · exact Bool.noConfusion (show (false : Bool) = true from hb)
  exact (cursorRun_inv L fileOffset events (initCursor position size) hinit).1

/-- C8 (amended): once the first block has been fed, a new read step is
issued only on a `bytesWritten` report from the sink whose queued byte count
is strictly below the file's PIECE LENGTH — the code's backpressure ceiling
is `pieceLength`, not the claimed 32 MiB — while the block-pending flag is
set and bytes remain. -/
theorem C8_amended_backpressure_gate (L fileOffset : Nat) (s : CursorState)
    (e : CursorEvent) (h : (cursorStep L fileOffset s e).2 = true) :
    s.blockPending = true ∧ s.left ≠ 0
    ∧ ∃ q, e = CursorEvent.sinkWritten q ∧ q < L := by
  cases e with
  | pieceDone =>
    exfalso
    by_cases h0 : s.inFlight = 0 <;> simp [cursorStep, h0] at h
  | sinkWritten q =>
    by_cases hc : q < L ∧ s.blockPending = true
    · by_cases h0 : s.left = 0
      · simp [cursorStep, hc, h0] at h
      · exact ⟨hc.2, h0, q, rfl, hc.1⟩
    · simp [cursorStep, hc] at h
  | pieceError =>
    exfalso
    by_cases h0 : s.inFlight = 0 <;> simp [cursorStep, h0] at h

theorem C8_amended_backpressure_gate_witness :
    (cursorStep 4 0 ⟨0, 10, true, 0⟩ (CursorEvent.sinkWritten 2)).2 = true
    ∧ ((⟨0, 10, true, 0⟩ : CursorState).blockPending = true
      ∧ (⟨0, 10, true, 0⟩ : CursorState).left ≠ 0
      ∧ ∃ q, CursorEvent.sinkWritten 2 = CursorEvent.sinkWritten q ∧ q < 4) :=
  ⟨by decide,
   C8_amended_backpressure_gate 4 0 ⟨0, 10, true, 0⟩ (CursorEvent.sinkWritten 2) (by decide)⟩

/-- C8 counterexample: with piece length 33 MiB (> 32 MiB), after the first
feed a new read step IS scheduled on a `bytesWritten` report of 32 MiB
queued bytes — i.e. while the queue is at the claimed 32 MiB ceiling —
because the code's gate compares `bytesToWrite() < pieceLength`. -/
theorem C8_counterexample :
    (cursorRun (33 * 1024 * 1024) 0 (initCursor 0 1000000000)
        [CursorEvent.pieceDone, CursorEvent.sinkWritten (32 * 1024 * 1024)]).2
      = [false, true]
    ∧ ¬ ((32 * 1024 * 1024 : Nat) < 32 * 1024 * 1024) := by decide

/-! ## Request dispatch (`StreamingManager::handleRequest` / `doHead` /
`doGet`, streamingmanager.cpp) -/

/-- Actions written to the `Http::Connection` by the handlers. -/
inductive HttpAction where
  | status (code : Nat) (text : String)
  | headersBlock (headers : List (String × String))
  | content (body : String)
  | closeConn
  | startRead (firstBytePos size : Int)
deriving DecidableEq

/-- The HTTP errors thrown by the dispatch handlers. -/
inductive HTTPErrorKind where
  | notFound
  | invalidRange
  | methodNotAllowed
deriving DecidableEq

/-- The `StreamFile` attributes consulted by the handlers. -/
structure StreamFileView where
  size : Int
  mimeType : String
deriving DecidableEq

/-- Embedding of `StreamingManager::doHead`: throw `NotFoundHTTPError` when the path
resolves to no file, otherwise write `200 Ok`, the four headers, and run
`connection->close()`. -/
def doHead (file? : Option StreamFileView) : List HttpAction × Option HTTPErrorKind :=
  match file? with
  | none => ([], some .notFound)
  | some file =>
    ([ .status 200 "Ok"
     , .headersBlock
        [ ("accept-ranges", "bytes")
        , ("connection", "close")
        , ("content-length", toString file.size)
        , ("content-type", file.mimeType) ]
     , .closeConn ], none)

/-- Embedding of `StreamingManager::doGet`.  NOTE the missing early return in the source:
when the `range` header value is empty, `doHead(request, connection)` runs —
and then execution FALLS THROUGH into the range handling, where
`Range::fromHttpRangeField` on the empty value fails and
`InvalidRangeHTTPError` is thrown after the HEAD response has already been
written. -/
def doGet (rangeValue : List Char) (file? : Option StreamFileView) :
    List HttpAction × Option HTTPErrorKind :=
  let fallback := if rangeValue.isEmpty then doHead file? else ([], none)
  match fallback.2 with
  | some e => (fallback.1, some e)
  | none =>
    match file? with
    | none => (fallback.1, some .notFound)
    | some file =>
      match fromHttpRangeField rangeValue file.size with
      | none => (fallback.1, some .invalidRange)
      | some range =>
        (fallback.1 ++
          [ .status 206 "Partial Content"
          , .headersBlock
              [ ("accept-ranges", "bytes")
              , ("content-length", toString range.size)
              , ("content-type", file.mimeType)
              , ("content-range", "bytes " ++ toString range.firstBytePos ++ "-"
                  ++ toString range.lastBytePos ++ "/" ++ toString file.size) ]
          , .startRead range.firstBytePos range.size ], none)

/-- Embedding of `Http::Request::method`, restricted to the dispatch cases. -/
inductive HttpMethod where
  | head
  | get
  | other
deriving DecidableEq

/-- Modelled from the spec: the `HTTPError` classes live in
`base/http/httperror`, outside the streaming sources; per §6, unknown paths
map to `404 Not Found`, an invalid range to a 416-equivalent rejection, and
unsupported methods to `405 Method Not Allowed`. -/
def errorStatusCode : HTTPErrorKind → Nat
  | .notFound => 404
  | .invalidRange => 416
  | .methodNotAllowed => 405

/-- The central catch block of `StreamingManager::handleRequest`: on a
thrown HTTP error, send its status line and close the connection (the
optional plain-text message body, whose contents are outside the streaming
sources, is elided). -/
def errorResponse (e : HTTPErrorKind) : List HttpAction :=
  [.status (errorStatusCode e) "", .closeConn]

/-- Embedding of `StreamingManager::handleRequest`: dispatch by method; on a thrown HTTP
error the catch block appends the error response to whatever the handler
already wrote. -/
def handleRequest (method : HttpMethod) (rangeValue : List Char)
    (file? : Option StreamFileView) : List HttpAction :=
  let dispatched :=
    match method with
    | .head => doHead file?
    | .get => doGet rangeValue file?
    | .other => ([], some .methodNotAllowed)
  match dispatched.2 with
  | none => dispatched.1
  | some e => dispatched.1 ++ errorResponse e

def isStatusAction : HttpAction → Bool
  | .status _ _ => true
  | _ => false

/-- C4 (code bug): a GET with no `Range` header on a registered file does
NOT behave exactly as HEAD.  `doGet` first runs `doHead` (which writes the
`200 Ok` response and closes), but — lacking a `return` — falls through,
parses the empty range value, and raises `InvalidRangeHTTPError`; the
central catch then writes a second status line onto the same connection.
A HEAD request on the same file writes exactly one status. -/
theorem C4_empty_range_get_bug :
    (doGet [] (some ⟨1000, "video/mp4"⟩)).2 = some HTTPErrorKind.invalidRange
    ∧ (doGet [] (some ⟨1000, "video/mp4"⟩)).1 = (doHead (some ⟨1000, "video/mp4"⟩)).1
    ∧ ((handleRequest HttpMethod.get [] (some ⟨1000, "video/mp4"⟩)).filter
        isStatusAction).length = 2
    ∧ (handleRequest HttpMethod.head [] (some ⟨1000, "video/mp4"⟩)).filter isStatusAction
        = [HttpAction.status 200 "Ok"] := by
  refine ⟨rfl, rfl, rfl, rfl⟩
